import Mathlib

/-!
Verification of the `ring_buffer` container (src/ring_buffer.h).

The buffer is embedded shallowly: the raw storage pointers of the C++ class
(`buffer_start`, `buffer_end`, `front_ptr`, `back_ptr`) become slot indices
relative to `buffer_start`, so `buffer_start = 0` and `buffer_end = cap`.
Storage is a total function `Nat → α` (the value currently sitting in each
slot); element construction writes the slot, element destruction leaves the
value in place (the C++ destructor does not change which bytes are where,
and the occupancy bookkeeping `[front, front+count)` is carried by the
`front`/`count` fields exactly as in the source).
-/

namespace RingBuffer

/-- State of a `ring_buffer<T>`: capacity (`buffer_end - buffer_start`),
slot contents, `front_ptr`, `back_ptr` (as indices in `[0, cap)`), and the
element counter `count`. -/
structure Buf (α : Type) where
  cap : Nat
  data : Nat → α
  front : Nat
  back : Nat
  count : Nat

variable {α : Type}

/-- Constructor `ring_buffer(capacity_size)`: `front_ptr = back_ptr = buffer_start`,
`count = 0`. The raw storage content is arbitrary (`f`). -/
def init (c : Nat) (f : Nat → α) : Buf α :=
  ⟨c, f, 0, 0, 0⟩

/-- Query `size()` — returns `count`. -/
def size (b : Buf α) : Nat := b.count

/-- Query `capacity()` — `udistance(buffer_start, buffer_end)`. -/
def capacity (b : Buf α) : Nat := b.cap

/-- Query `reserve()` — `capacity() - size()`. -/
def reserveSize (b : Buf α) : Nat := capacity b - size b

/-- Query `empty()` — `!size()`. -/
def emptyB (b : Buf α) : Bool := size b == 0

/-- Query `full()` — `size() == capacity()`. -/
def fullB (b : Buf α) : Bool := size b == capacity b

/-- Query `is_linearized()` — `back_ptr > front_ptr || back_ptr == buffer_start`. -/
def is_linearized (b : Buf α) : Bool := b.back > b.front || b.back == 0

/-- Helper `increment_back()` — advance `back_ptr` with wrap, `++count`. -/
def increment_back (b : Buf α) : Buf α :=
  { b with back := if b.back + 1 = b.cap then 0 else b.back + 1, count := b.count + 1 }

/-- Helper `increment_front()` — advance `front_ptr` with wrap, `--count`. -/
def increment_front (b : Buf α) : Buf α :=
  { b with front := if b.front + 1 = b.cap then 0 else b.front + 1, count := b.count - 1 }

/-- Helper `decrement_back()` — retreat `back_ptr` with wrap, `--count`. -/
def decrement_back (b : Buf α) : Buf α :=
  { b with back := (if b.back = 0 then b.cap else b.back) - 1, count := b.count - 1 }

/-- Helper `decrement_front()` — retreat `front_ptr` with wrap, `++count`. -/
def decrement_front (b : Buf α) : Buf α :=
  { b with front := (if b.front = 0 then b.cap else b.front) - 1, count := b.count + 1 }

/-- Construct a value into one slot (`alloc_traits::construct` at a raw
pointer): pointwise update of the storage function. -/
def write (f : Nat → α) (i : Nat) (v : α) : Nat → α :=
  fun j => if j = i then v else f j

/-- Insertion `emplace_back_without_checks(args...)` with a succeeding constructor:
save `back_ptr`, `increment_back()`, construct at the saved slot. -/
def emplace_back_without_checks (b : Buf α) (v : α) : Buf α :=
  let saved := b.back
  let b1 := increment_back b
  { b1 with data := write b1.data saved v }

/-- Insertion `emplace_back(args...)`: if `full()` then `pop_front()` first, then
`emplace_back_without_checks`. -/
def emplace_back (b : Buf α) (v : α) : Buf α :=
  if fullB b then emplace_back_without_checks (increment_front b) v
  else emplace_back_without_checks b v

/-- Insertion `try_emplace_back(args...)`: if `full()` return `false` without touching
the buffer, else insert and return `true`. -/
def try_emplace_back (b : Buf α) (v : α) : Bool × Buf α :=
  if fullB b then (false, b) else (true, emplace_back_without_checks b v)

/-- Removal `pop_front()` (discarding): destroy `*front_ptr`, `increment_front()`.
Destruction does not move bytes, so only the bookkeeping changes. -/
def pop_front_discard (b : Buf α) : Buf α := increment_front b

/-- Removal `pop_front(value&)`: the moved-out value is `*front_ptr`, the state
change is `increment_front()`. -/
def pop_front_read (b : Buf α) : α × Buf α := (b.data b.front, increment_front b)

/-- Removal `pop_back()` (discarding): `decrement_back()`, destroy `*back_ptr`. -/
def pop_back_discard (b : Buf α) : Buf α := decrement_back b

/-- Removal `try_pop_front()`: no-op returning `false` on an empty buffer. -/
def try_pop_front (b : Buf α) : Bool × Buf α :=
  if emptyB b then (false, b) else (true, pop_front_discard b)

/-- Removal `try_pop_back()`: no-op returning `false` on an empty buffer. -/
def try_pop_back (b : Buf α) : Bool × Buf α :=
  if emptyB b then (false, b) else (true, pop_back_discard b)

/-- The logical content of the buffer, oldest first: iterating `begin()`
with `operator++` (which is `increment(ptr)`: step one slot, wrap at
`buffer_end`) visits slots `(front + k) % cap` for `k = 0, …, count-1`. -/
def toList (b : Buf α) : List α :=
  (List.range b.count).map (fun k => b.data ((b.front + k) % b.cap))

/-- Representation invariant of a reachable buffer with positive capacity:
pointers in range, counter bounded, and `back_ptr` sitting `count` slots
(mod `cap`) after `front_ptr`. -/
def Wf (b : Buf α) : Prop :=
  0 < b.cap ∧ b.front < b.cap ∧ b.back < b.cap ∧ b.count ≤ b.cap ∧
    b.back = (b.front + b.count) % b.cap

instance (b : Buf α) : Decidable (Wf b) := by
  unfold Wf; infer_instance

/-- Variant of `emplace_back_without_checks` for a fallible element constructor
(`__cpp_exceptions` path): save `back_ptr`, `increment_back()`, construct;
on a constructor throw, `decrement_back()` and rethrow.  The `error` case
carries the state observable after unwinding. -/
def emplace_back_fallible (b : Buf α) (mk : Option α) : Except (Buf α) (Buf α) :=
  let saved := b.back
  let b1 := increment_back b
  match mk with
  | some v => Except.ok { b1 with data := write b1.data saved v }
  | none => Except.error (decrement_back b1)

/-- One public single-element mutation, for reachability statements. -/
inductive Op (α : Type) where
  | push : α → Op α
  | tryPush : α → Op α
  | popF : Op α
  | popB : Op α

/-- Apply one operation: `push_back`, `try_push_back`, `try_pop_front`,
`try_pop_back`. -/
def applyOp (b : Buf α) : Op α → Buf α
  | .push v => emplace_back b v
  | .tryPush v => (try_emplace_back b v).2
  | .popF => (try_pop_front b).2
  | .popB => (try_pop_back b).2

/-- Run a sequence of operations. -/
def run (b : Buf α) (ops : List (Op α)) : Buf α := ops.foldl applyOp b

/-- Push a whole list with the evicting `push_back`. -/
def pushList (b : Buf α) (xs : List α) : Buf α := xs.foldl emplace_back b

/-- Pop `n` values from the front with `pop_front(value&)`, in order. -/
def popN (b : Buf α) : Nat → List α
  | 0 => []
  | n + 1 => (pop_front_read b).1 :: popN (pop_front_read b).2 n

/-- Model of `std::uninitialized_copy(xs, …)` to the consecutive raw slots
`[i, i + xs.length)` (one physical pass never wraps in the source; wrap
splits are explicit separate copies there and here). -/
def writeSeq (f : Nat → α) (i : Nat) (xs : List α) : Nat → α :=
  fun k => if i ≤ k ∧ k < i + xs.length then xs.getD (k - i) (f k) else f k

/-- Bulk insertion `insert_back(first, last)`: bulk insert at the back, three top-level
cases on `range_size` vs `available` and `capacity`, each split by the
physical position of `front_ptr`/`back_ptr` exactly as in the source.
`std::destroy` calls leave slot values in place. -/
def insert_back (b : Buf α) (xs : List α) : Buf α :=
  let range_size := xs.length
  let linearized := is_linearized b
  let available_size := reserveSize b
  let capacity_size := capacity b
  if available_size ≥ range_size then
    if b.front = 0 then
      let nb := b.back + range_size
      { b with count := b.count + range_size,
               data := writeSeq b.data b.back xs,
               back := if nb = capacity_size then 0 else nb }
    else if b.back = 0 ∨ linearized = false then
      { b with count := b.count + range_size,
               data := writeSeq b.data b.back xs,
               back := b.back + range_size }
    else
      let t := min range_size (capacity_size - b.back)
      let d1 := writeSeq b.data b.back (xs.take t)
      if t ≠ range_size then
        { b with count := b.count + range_size,
                 data := writeSeq d1 0 (xs.drop t),
                 back := range_size - t }
      else
        let nb := b.back + t
        { b with count := b.count + range_size, data := d1,
                 back := if nb = capacity_size then 0 else nb }
  else if range_size < capacity_size then
    if b.front = 0 then
      let d1 := writeSeq b.data b.back (xs.take available_size)
      { b with count := capacity_size,
               data := writeSeq d1 0 (xs.drop available_size),
               front := range_size - available_size,
               back := range_size - available_size }
    else if b.back = 0 then
      { b with count := capacity_size,
               data := writeSeq b.data b.back xs,
               front := b.back + range_size, back := b.back + range_size }
    else if linearized = false then
      let array1_size := capacity_size - b.front
      let r := range_size - available_size
      let to_copy := min r array1_size
      let r2 := r - to_copy
      let d1 := writeSeq b.data b.back (xs.take (available_size + to_copy))
      let p1 := b.back + (available_size + to_copy)
      if r2 ≠ 0 then
        { b with count := capacity_size,
                 data := writeSeq d1 0 (xs.drop (available_size + to_copy)),
                 front := r2, back := r2 }
      else
        let p := if p1 = capacity_size then 0 else p1
        { b with count := capacity_size, data := d1, front := p, back := p }
    else
      let t := capacity_size - b.back
      let d1 := writeSeq b.data b.back (xs.take t)
      { b with count := capacity_size,
               data := writeSeq d1 0 (xs.drop t),
               front := range_size - t, back := range_size - t }
  else
    { b with count := capacity_size,
             data := writeSeq b.data 0 (xs.drop (range_size - capacity_size)),
             front := 0, back := 0 }

/-- Model of `std::rotate(first, middle, last)` over slots `[i, j)` with middle `m`:
a left rotation by `m - i`. -/
def rotateRange (f : Nat → α) (i m j : Nat) : Nat → α :=
  fun k => if i ≤ k ∧ k < j then f (i + ((k - i + (m - i)) % (j - i))) else f k

/-- Model of `std::swap_ranges(first1, last1, first2)` over the disjoint slot ranges
`[i, i+len)` and `[j, j+len)` (all uses in `linearize` are disjoint). -/
def swapRanges (f : Nat → α) (i j len : Nat) : Nat → α :=
  fun k =>
    if i ≤ k ∧ k < i + len then f (j + (k - i))
    else if j ≤ k ∧ k < j + len then f (i + (k - j))
    else f k

/-- Default-construct `T()` into slots `[i, j)`. -/
def constructRange (f : Nat → α) (i j : Nat) (d : α) : Nat → α :=
  fun k => if i ≤ k ∧ k < j then d else f k

/-- The `while (1)` swap loop of `linearize`'s first branch: swap
`[0, a2)` with `[r, r + a2)`, step `r` down by `a2`, stop (restoring `r`)
once the next position would fall below the old `front_ptr`.  Fuel-indexed;
any fuel above `r / a2` is enough.  C++ compares raw pointers, so a step
below `buffer_start` would already have broken out (`fr ≥ 1` whenever this
branch runs). -/
def swapLoop1 : Nat → (Nat → α) → Nat → Nat → Nat → ((Nat → α) × Nat)
  | 0, f, _, _, r => (f, r)
  | fuel + 1, f, a2, fr, r =>
    let f1 := swapRanges f 0 r a2
    if r - a2 < fr then (f1, r)
    else swapLoop1 fuel f1 a2 fr (r - a2)

/-- The guarded swap loop of `linearize`'s second branch: while
`array1_size >= (size_t)distance(it2, end2)` (false as soon as `it2` moves
past `end2`, because the signed distance is cast to `size_t`), swap
`[fr, cap)` with `[it2, it2 + (cap - fr))` and advance `it2`. -/
def swapLoop2 : Nat → (Nat → α) → Nat → Nat → Nat → Nat → ((Nat → α) × Nat)
  | 0, f, _, _, _, it2 => (f, it2)
  | fuel + 1, f, fr, cap, end2, it2 =>
    if it2 ≤ end2 ∧ cap - fr ≥ end2 - it2 then
      swapLoop2 fuel (swapRanges f fr it2 (cap - fr)) fr cap end2 (it2 + (cap - fr))
    else (f, it2)

/-- Rearrangement `linearize()`: returns the pointer result (`none` = `nullptr`,
`some s` = `buffer_start + s`) and the resulting state.  Faithful to the
source: empty → `nullptr`; already linearized → no-op returning
`front_ptr`; otherwise the branch on `array_one().size()` vs
`array_two().size()` — note that nothing moves when the two sizes are
equal — and finally `front_ptr = buffer_start`,
`back_ptr = front_ptr + size()`. -/
def linearize [Inhabited α] (b : Buf α) : Option Nat × Buf α :=
  if emptyB b then (none, b)
  else if is_linearized b then (some b.front, b)
  else
    let a1sz := b.cap - b.front
    let a2sz := b.back
    let freeMem := reserveSize b
    let d :=
      if a1sz > a2sz then
        let f1 := constructRange b.data a2sz (a2sz + freeMem) default
        let f2 := rotateRange f1 a2sz b.front b.cap
        let p := swapLoop1 (b.cap + 1) f2 a2sz b.front (b.cap - a2sz)
        rotateRange p.1 0 b.front p.2
      else if a2sz > a1sz then
        let p := swapLoop2 (b.cap + 2) b.data b.front b.cap a2sz 0
        let f2 := constructRange p.1 a2sz (a2sz + freeMem) default
        rotateRange f2 p.2 b.front b.cap
      else b.data
    (some 0, { b with data := d, front := 0, back := b.count })

/-- Helper `make_linear_pointer` of `ring_buffer_iterator::operator-`,
on a non-null element pointer `buffer_start + s`: keep pointers in
`[front_ptr, buffer_end)`, shift the rest up by `buffer_end - front_ptr`. -/
def make_linear_ptr (b : Buf α) (s : Nat) : Nat :=
  if is_linearized b then s
  else if b.front ≤ s ∧ s < b.cap then s
  else s + (b.cap - b.front)

/-- Difference `it1 - it2` for two non-null iterators of the same buffer, holding
physical slots `s1`, `s2`. -/
def iterSub (b : Buf α) (s1 s2 : Nat) : Int :=
  (make_linear_ptr b s1 : Int) - (make_linear_ptr b s2 : Int)

/-- Physical slot of the element at logical position `p` (the slot an
iterator obtained as `begin()` incremented `p` times points to). -/
def slotOfPos (b : Buf α) (p : Nat) : Nat := (b.front + p) % b.cap

/-- The comparison loop of `operator==`: walk `rhs`'s elements (`first1`)
against `lhs`'s (`first2`).  Dereferencing `lhs`'s iterator past its end —
which the code happily does when `rhs` is longer — is undefined: `none`. -/
def opEqLoop [DecidableEq α] : List α → List α → Option Bool
  | [], _ => some true
  | _ :: _, [] => none
  | x :: xs, y :: ys => if x ≠ y then some false else opEqLoop xs ys

/-- Comparison `operator==(lhs, rhs)`: iterate over `rhs` (`first1 = rhs.begin()`),
comparing with `lhs`'s elements in logical order.  There is no size
check. -/
def opEq [DecidableEq α] (lhs rhs : Buf α) : Option Bool :=
  opEqLoop (toList rhs) (toList lhs)

/-- A wrapped buffer of capacity 4 with equal physical halves: logical
content `3,4,5,6`, with `3,4` in slots 2–3 and `5,6` in slots 0–1
(`front_ptr = back_ptr = buffer_start + 2`, full).  Reached by pushing
`1,…,6` into a fresh capacity-4 buffer. -/
def exEqualHalves : Buf Nat :=
  ⟨4, fun i => if i = 0 then 5 else if i = 1 then 6 else if i = 2 then 3 else 4, 2, 2, 4⟩

/-- A full capacity-1 buffer holding `[1]`. -/
def exOne : Buf Nat := ⟨1, fun _ => 1, 0, 0, 1⟩

/-- An empty capacity-1 buffer. -/
def exNil : Buf Nat := ⟨1, fun _ => 1, 0, 0, 0⟩

/-- A capacity-3 buffer holding `10, 11` in slots 0–1 (`front_ptr` at slot
0, `back_ptr` at slot 2). -/
def exBulk : Buf Nat := ⟨3, fun i => 10 + i, 0, 2, 2⟩

/-! ## Theorems -/

theorem toList_length (b : Buf α) : (toList b).length = b.count := by
  simp [toList]

theorem wf_init (c : Nat) (f : Nat → α) (hc : 0 < c) : Wf (init c f) := by
  refine ⟨hc, hc, hc, Nat.zero_le _, ?_⟩
  simp [init, Nat.mod_eq_of_lt hc]

theorem toList_init (c : Nat) (f : Nat → α) : toList (init c f) = [] := by
  simp [toList, init]

theorem wf_push (b : Buf α) (v : α) (hwf : Wf b) (h : b.count < b.cap) :
    Wf (emplace_back_without_checks b v) := by
  obtain ⟨hc, hf, hb, hcnt, hback⟩ := hwf
  have hmod : (b.front + (b.count + 1)) % b.cap = (b.back + 1) % b.cap := by
    have h1 : b.front + (b.count + 1) = (b.front + b.count) + 1 := by omega
    rw [h1, hback, Nat.mod_add_mod]
  have hnew : (if b.back + 1 = b.cap then 0 else b.back + 1) = (b.back + 1) % b.cap := by
    split
    · next heq => rw [heq, Nat.mod_self]
    · next hne => exact (Nat.mod_eq_of_lt (by omega)).symm
  refine ⟨hc, hf, ?_, h, ?_⟩ <;>
    simp only [emplace_back_without_checks, increment_back]
  · rw [hnew]; exact Nat.mod_lt _ hc
  · rw [hnew, hmod]

theorem fullB_iff (b : Buf α) : fullB b = true ↔ b.count = b.cap := by
  simp [fullB, size, capacity]

theorem emptyB_iff (b : Buf α) : emptyB b = true ↔ b.count = 0 := by
  simp [emptyB, size]

theorem wrapSucc (x c : Nat) (hx : x < c) :
    (if x + 1 = c then 0 else x + 1) = (x + 1) % c := by
  split
  · next he => rw [he, Nat.mod_self]
  · next he => exact (Nat.mod_eq_of_lt (by omega)).symm

theorem toList_push (b : Buf α) (v : α) (hwf : Wf b) (h : b.count < b.cap) :
    toList (emplace_back_without_checks b v) = toList b ++ [v] := by
  obtain ⟨hc, hf, hb, hcnt, hback⟩ := hwf
  have hkey : ∀ k, k < b.count → (b.front + k) % b.cap ≠ b.back := by
    intro k hk heq
    rw [hback] at heq
    have h2 : k % b.cap = b.count % b.cap := Nat.ModEq.add_left_cancel' b.front heq
    rw [Nat.mod_eq_of_lt (by omega), Nat.mod_eq_of_lt (by omega)] at h2
    omega
  simp only [emplace_back_without_checks, increment_back, toList, List.range_succ,
    List.map_append, List.map_cons, List.map_nil]
  congr 1
  · apply List.map_congr_left
    intro k hk
    rw [List.mem_range] at hk
    simp [write, hkey k hk]
  · rw [← hback]
    simp [write]

theorem wf_pop (b : Buf α) (hwf : Wf b) (h : 0 < b.count) : Wf (increment_front b) := by
  obtain ⟨hc, hf, hb, hcnt, hback⟩ := hwf
  refine ⟨hc, ?_, hb, by simp only [increment_front]; omega, ?_⟩ <;>
    simp only [increment_front, wrapSucc b.front b.cap hf]
  · exact Nat.mod_lt _ hc
  · rw [Nat.mod_add_mod]
    have he : b.front + 1 + (b.count - 1) = b.front + b.count := by omega
    rw [he, ← hback]

theorem toList_cons (b : Buf α) (hwf : Wf b) (h : 0 < b.count) :
    toList b = b.data b.front :: toList (increment_front b) := by
  obtain ⟨hc, hf, hb, hcnt, hback⟩ := hwf
  obtain ⟨n, hn⟩ : ∃ n, b.count = n + 1 := ⟨b.count - 1, by omega⟩
  simp only [toList, increment_front, hn, Nat.add_sub_cancel]
  rw [List.range_succ_eq_map]
  simp only [List.map_cons, List.map_map]
  congr 1
  · rw [Nat.add_zero, Nat.mod_eq_of_lt hf]
  · apply List.map_congr_left
    intro k hk
    simp only [Function.comp_apply]
    rw [wrapSucc b.front b.cap hf, Nat.mod_add_mod]
    have he : b.front + (k + 1) = b.front + 1 + k := by omega
    rw [he]

theorem emplace_back_not_full (b : Buf α) (v : α) (h : b.count < b.cap) :
    emplace_back b v = emplace_back_without_checks b v := by
  have hful : fullB b = false := by simp [fullB, size, capacity]; omega
  simp [emplace_back, hful]

theorem pushList_spec (xs : List α) (b : Buf α) (hwf : Wf b)
    (h : b.count + xs.length ≤ b.cap) :
    Wf (pushList b xs) ∧ (pushList b xs).cap = b.cap ∧
      (pushList b xs).count = b.count + xs.length ∧
      toList (pushList b xs) = toList b ++ xs := by
  induction xs generalizing b with
  | nil => exact ⟨hwf, rfl, by simp [pushList], by simp [pushList]⟩
  | cons x xs ih =>
      have hlt : b.count < b.cap := by simp only [List.length_cons] at h; omega
      have hstep : pushList b (x :: xs) = pushList (emplace_back_without_checks b x) xs := by
        simp [pushList, emplace_back_not_full b x hlt]
      have hcap1 : (emplace_back_without_checks b x).cap = b.cap := rfl
      have hcnt1 : (emplace_back_without_checks b x).count = b.count + 1 := rfl
      have hwf1 := wf_push b x hwf hlt
      have harg : (emplace_back_without_checks b x).count + xs.length ≤
          (emplace_back_without_checks b x).cap := by
        rw [hcap1, hcnt1]; simp only [List.length_cons] at h; omega
      obtain ⟨w1, w2, w3, w4⟩ := ih (emplace_back_without_checks b x) hwf1 harg
      rw [hstep]
      refine ⟨w1, by rw [w2, hcap1], by rw [w3, hcnt1]; simp; omega, ?_⟩
      rw [w4, toList_push b x hwf hlt]
      simp

theorem popN_take (n : Nat) (b : Buf α) (hwf : Wf b) (h : n ≤ b.count) :
    popN b n = (toList b).take n := by
  induction n generalizing b with
  | zero => simp [popN]
  | succ n ih =>
      have h0 : 0 < b.count := by omega
      rw [popN, toList_cons b hwf h0, List.take_succ_cons]
      have hcnt : (increment_front b).count = b.count - 1 := rfl
      exact congrArg₂ (· :: ·) rfl
        (ih (increment_front b) (wf_pop b hwf h0) (by rw [hcnt]; omega))

theorem applyOp_cap (b : Buf α) (op : Op α) : (applyOp b op).cap = b.cap := by
  cases op <;>
    simp only [applyOp, emplace_back, try_emplace_back, try_pop_front, try_pop_back,
      pop_front_discard, pop_back_discard, emplace_back_without_checks, increment_back,
      increment_front, decrement_back] <;>
    split <;> rfl

theorem applyOp_count (b : Buf α) (op : Op α) (h : b.count ≤ b.cap) (hc : 0 < b.cap) :
    (applyOp b op).count ≤ b.cap := by
  cases op <;>
    simp only [applyOp, emplace_back, try_emplace_back, try_pop_front, try_pop_back,
      pop_front_discard, pop_back_discard, emplace_back_without_checks, increment_back,
      increment_front, decrement_back] <;>
    split <;>
    simp_all [fullB_iff, emptyB_iff] <;>
    omega

theorem run_inv (ops : List (Op α)) (b : Buf α) (h : b.count ≤ b.cap) (hc : 0 < b.cap) :
    (run b ops).count ≤ (run b ops).cap ∧ 0 < (run b ops).cap := by
  induction ops generalizing b with
  | nil => exact ⟨h, hc⟩
  | cons op ops ih =>
      have h1 := applyOp_count b op h hc
      have h2 := applyOp_cap b op
      have hrun : run b (op :: ops) = run (applyOp b op) ops := by simp [run]
      rw [hrun]
      exact ih (applyOp b op) (by rw [h2]; exact h1) (by rw [h2]; exact hc)

/-- C1: for every buffer built with positive capacity (`init c f`, `1 ≤ c`)
and every finite sequence of single-element inserts/removals, the state
reached satisfies `size() ≤ capacity()`, `empty()` is true exactly when
`size() = 0`, and `full()` is true exactly when `size() = capacity()`. -/
theorem C1_invariants (c : Nat) (f : Nat → α) (ops : List (Op α)) (hc : 1 ≤ c) :
    size (run (init c f) ops) ≤ capacity (run (init c f) ops) ∧
      (emptyB (run (init c f) ops) = true ↔ size (run (init c f) ops) = 0) ∧
      (fullB (run (init c f) ops) = true ↔
        size (run (init c f) ops) = capacity (run (init c f) ops)) := by
  refine ⟨?_, emptyB_iff _, fullB_iff _⟩
  exact (run_inv ops (init c f) (by show (0 : Nat) ≤ c; omega) (by show 0 < c; omega)).1

theorem C1_invariants_witness :
    1 ≤ 2 ∧
      (size (run (init 2 (fun _ => (0 : Nat))) [Op.push 5, Op.popF]) ≤
          capacity (run (init 2 (fun _ => (0 : Nat))) [Op.push 5, Op.popF]) ∧
        (emptyB (run (init 2 (fun _ => (0 : Nat))) [Op.push 5, Op.popF]) = true ↔
          size (run (init 2 (fun _ => (0 : Nat))) [Op.push 5, Op.popF]) = 0) ∧
        (fullB (run (init 2 (fun _ => (0 : Nat))) [Op.push 5, Op.popF]) = true ↔
          size (run (init 2 (fun _ => (0 : Nat))) [Op.push 5, Op.popF]) =
            capacity (run (init 2 (fun _ => (0 : Nat))) [Op.push 5, Op.popF]))) :=
  ⟨by decide, C1_invariants 2 (fun _ => (0 : Nat)) [Op.push 5, Op.popF] (by decide)⟩

/-- C2: pushing `n ≤ c` elements at the back of a fresh buffer of capacity
`c ≥ 1` and then popping `n` from the front returns them in order. -/
theorem C2_round_trip (c : Nat) (f : Nat → α) (xs : List α) (hc : 0 < c)
    (hlen : xs.length ≤ c) :
    popN (pushList (init c f) xs) xs.length = xs := by
  have h0 := wf_init c f hc
  obtain ⟨hwf', hcap', hcnt', hlist'⟩ :=
    pushList_spec xs (init c f) h0 (by simpa [init] using hlen)
  rw [popN_take _ _ hwf' (by rw [hcnt']; simp [init]), hlist', toList_init]
  simp

theorem C2_round_trip_witness :
    0 < 3 ∧ ([1, 2, 3] : List Nat).length ≤ 3 ∧
      popN (pushList (init 3 (fun _ => (0 : Nat))) [1, 2, 3]) ([1, 2, 3] : List Nat).length =
        [1, 2, 3] :=
  ⟨by decide, by decide, C2_round_trip 3 (fun _ => (0 : Nat)) [1, 2, 3] (by decide) (by decide)⟩

/-- C3: on a full, well-formed buffer, the evicting `push_back`/`emplace_back`
drops exactly the oldest element and appends the new one: the result is the
old content minus its head, in order, followed by the new element, and the
buffer stays at full size. -/
theorem C3_evicting_push_on_full (b : Buf α) (v : α) (hwf : Wf b) (h : fullB b = true) :
    toList (emplace_back b v) = (toList b).tail ++ [v] ∧
      size (emplace_back b v) = capacity b := by
  have hc : 0 < b.cap := hwf.1
  have hcount : b.count = b.cap := (fullB_iff b).mp h
  have h0 : 0 < b.count := by omega
  have hwf1 : Wf (increment_front b) := wf_pop b hwf h0
  have hlt : (increment_front b).count < (increment_front b).cap := by
    simp only [increment_front]; omega
  have hstep : emplace_back b v = emplace_back_without_checks (increment_front b) v := by
    simp [emplace_back, h]
  constructor
  · rw [hstep, toList_push _ v hwf1 hlt]
    have htail : (toList b).tail = toList (increment_front b) := by
      rw [toList_cons b hwf h0, List.tail_cons]
    rw [htail]
  · rw [hstep]
    simp only [size, capacity, emplace_back_without_checks, increment_back, increment_front]
    omega

theorem C3_evicting_push_on_full_witness :
    Wf exEqualHalves ∧ fullB exEqualHalves = true ∧
      (toList (emplace_back exEqualHalves 7) = (toList exEqualHalves).tail ++ [7] ∧
        size (emplace_back exEqualHalves 7) = capacity exEqualHalves) :=
  ⟨by decide, by decide, C3_evicting_push_on_full exEqualHalves 7 (by decide) (by decide)⟩

/-- C4: on a full buffer, `try_push_back`/`try_emplace_back` returns `false`
and the state (size, elements, pointers, storage) is exactly the input
state. -/
theorem C4_try_push_full_unchanged (b : Buf α) (v : α) (h : fullB b = true) :
    try_emplace_back b v = (false, b) := by
  simp [try_emplace_back, h]

theorem C4_try_push_full_unchanged_witness :
    fullB exOne = true ∧ try_emplace_back exOne 7 = (false, exOne) :=
  ⟨by decide, C4_try_push_full_unchanged exOne 7 (by decide)⟩

/-- C8: in a non-full buffer, if the element constructor throws during
`emplace_back_without_checks`, the call exits with the buffer in exactly the
pre-call state: the speculative `increment_back` is undone by
`decrement_back`, so no boundary moved, the size is unchanged, and the slot
that was written to is still marked unoccupied. -/
theorem C8_construct_failure_rollback (b : Buf α) (h : fullB b = false) :
    emplace_back_fallible b none = Except.error b := by
  obtain ⟨cap, data, front, back, count⟩ := b
  simp only [emplace_back_fallible, increment_back, decrement_back, Except.error.injEq,
    Buf.mk.injEq, eq_self_iff_true, true_and, and_true]
  constructor
  · rcases eq_or_ne (back + 1) cap with hbc | hbc <;> simp [hbc] <;> omega
  · omega

theorem C8_construct_failure_rollback_witness :
    fullB exNil = false ∧ emplace_back_fallible exNil none = Except.error exNil :=
  ⟨by decide, C8_construct_failure_rollback exNil (by decide)⟩

/-- C10: `linearize()` on an empty buffer returns `nullptr` (not the storage
start) and does not change the buffer at all. -/
theorem C10_linearize_empty [Inhabited α] (b : Buf α) (h : emptyB b = true) :
    linearize b = (none, b) := by
  simp [linearize, h]

theorem C10_linearize_empty_witness :
    emptyB exNil = true ∧ linearize exNil = (none, exNil) :=
  ⟨by decide, C10_linearize_empty exNil (by decide)⟩

/-- C5 counterexample: `linearize()` does not preserve the logical sequence.
On the reachable full capacity-4 buffer whose two physical halves have equal
length (content `3,4,5,6`, `front_ptr` at slot 2), both rearrangement
branches are skipped (`array1.size() > array2.size()` and
`array2.size() > array1.size()` are both false) while the pointers are still
reset, so the content read back is `5,6,3,4`. -/
theorem C5_linearize_breaks_sequence :
    toList exEqualHalves = [3, 4, 5, 6] ∧
      emptyB exEqualHalves = false ∧
      is_linearized exEqualHalves = false ∧
      toList (linearize exEqualHalves).2 = [5, 6, 3, 4] := by
  decide

/-- C7 counterexample: `operator==` never compares sizes — it walks the
right-hand buffer's elements only.  With `lhs` holding one element and `rhs`
empty, the loop body never runs and the operator returns `true` although the
sizes differ. -/
theorem C7_operator_eq_ignores_size :
    size exOne ≠ size exNil ∧ opEq exOne exNil = some true := by
  decide

/-- C9 counterexample: iterator difference is not the logical-position
delta across the wrap.  In the wrapped buffer `exEqualHalves` the element at
logical position 2 sits in slot 0 and the one at logical position 0 in slot
2; `make_linear_pointer` shifts slot 0 up by `buffer_end - front_ptr` = 2
instead of `capacity` = 4, so the computed difference is 0, not 2. -/
theorem C9_iterator_sub_wrong_across_wrap :
    Wf exEqualHalves ∧
      slotOfPos exEqualHalves 0 = 2 ∧ slotOfPos exEqualHalves 2 = 0 ∧
      iterSub exEqualHalves (slotOfPos exEqualHalves 2) (slotOfPos exEqualHalves 0) = 0 ∧
      (2 - 0 : Int) ≠ 0 := by
  decide

theorem mod_cases (a c : Nat) (hc : 0 < c) (h : a < 2 * c) :
    a % c = if a < c then a else a - c := by
  split
  · next hlt => exact Nat.mod_eq_of_lt hlt
  · next hge => rw [Nat.mod_eq_sub_mod (by omega), Nat.mod_eq_of_lt (by omega)]

theorem writeSeq_apply_in (f : Nat → α) (i : Nat) (xs : List α) (k : Nat)
    (h1 : i ≤ k) (h2 : k - i < xs.length) :
    writeSeq f i xs k = xs[k - i] := by
  simp only [writeSeq, if_pos (show i ≤ k ∧ k < i + xs.length by omega)]
  exact List.getD_eq_getElem xs (f k) h2

theorem writeSeq_apply_out (f : Nat → α) (i : Nat) (xs : List α) (k : Nat)
    (h : ¬(i ≤ k ∧ k < i + xs.length)) :
    writeSeq f i xs k = f k := by
  simp only [writeSeq, if_neg h]

theorem toList_getElem (b : Buf α) (k : Nat) (h : k < (toList b).length) :
    (toList b)[k] = b.data ((b.front + k) % b.cap) := by
  simp [toList]

theorem getElem_idx_eq (xs : List α) (i j : Nat) (hi : i < xs.length)
    (hj : j < xs.length) (hij : i = j) : xs[i] = xs[j] := by
  subst hij
  rfl

theorem insert_back_caseA (b : Buf α) (xs : List α) (hwf : Wf b)
    (h1 : b.cap - b.count < xs.length) (h2 : xs.length < b.cap) (hf : b.front = 0) :
    (insert_back b xs).count = b.cap ∧
      toList (insert_back b xs) =
        (toList b).drop (xs.length - (b.cap - b.count)) ++ xs := by
  obtain ⟨hc, hfr, hb, hcnt, hback⟩ := hwf
  have hcnt0 : 0 < b.count := by omega
  have hbkd : b.back = b.count ∨ (b.back = 0 ∧ b.cap - b.count = 0) := by
    rcases eq_or_lt_of_le hcnt with he | hlt
    · right
      rw [hback, hf, Nat.zero_add, he, Nat.mod_self]
      omega
    · left
      rw [hback, hf, Nat.zero_add, Nat.mod_eq_of_lt hlt]
  have hred : insert_back b xs =
      { b with count := b.cap,
               front := xs.length - (b.cap - b.count),
               back := xs.length - (b.cap - b.count),
               data := writeSeq (writeSeq b.data b.back (xs.take (b.cap - b.count))) 0
                         (xs.drop (b.cap - b.count)) } := by
    unfold insert_back
    simp only [reserveSize, capacity, size]
    rw [if_neg (by omega), if_pos (by omega), if_pos hf]
  rw [hred]
  refine ⟨rfl, ?_⟩
  apply List.ext_getElem
  · simp only [toList_length, List.length_append, List.length_drop]
    omega
  · intro k hk1 hk2
    rw [toList_getElem]
    dsimp only
    have hk1c : k < b.cap := by
      rw [toList_length] at hk1
      exact hk1
    have hlen_drop : ((toList b).drop (xs.length - (b.cap - b.count))).length =
        b.count - (xs.length - (b.cap - b.count)) := by
      simp [toList_length]
    have hs : (xs.length - (b.cap - b.count) + k) % b.cap =
        if xs.length - (b.cap - b.count) + k < b.cap
        then xs.length - (b.cap - b.count) + k
        else xs.length - (b.cap - b.count) + k - b.cap :=
      mod_cases _ _ hc (by omega)
    by_cases hkc : k < b.count - (xs.length - (b.cap - b.count))
    · -- a surviving old element
      rw [List.getElem_append_left (by omega)]
      rw [List.getElem_drop, toList_getElem, hf, Nat.zero_add]
      have hs2 : (xs.length - (b.cap - b.count) + k) % b.cap =
          xs.length - (b.cap - b.count) + k := by
        rw [hs, if_pos (by omega)]
      rw [hs2]
      rw [writeSeq_apply_out, writeSeq_apply_out]
      all_goals first
        | (simp only [List.length_drop]; omega)
        | (simp only [List.length_take]
           rcases hbkd with hv | ⟨hv, hz⟩ <;> omega)
    · -- a freshly inserted element
      rw [List.getElem_append_right (by omega)]
      simp only [hlen_drop]
      by_cases hin : xs.length - (b.cap - b.count) + k < b.cap
      · -- lands in the tail segment written at back_ptr
        have havail : 0 < b.cap - b.count := by omega
        have hbv : b.back = b.count := by
          rcases hbkd with hv | ⟨hv, hz⟩
          · exact hv
          · omega
        have hs2 : (xs.length - (b.cap - b.count) + k) % b.cap =
            xs.length - (b.cap - b.count) + k := by
          rw [hs, if_pos hin]
        rw [hs2, writeSeq_apply_out, writeSeq_apply_in, List.getElem_take]
        all_goals first
          | (exact getElem_idx_eq _ _ _ _ _ (by omega))
          | omega
          | (simp only [List.length_take]; omega)
          | (simp only [List.length_drop]; omega)
      · -- wraps to the head segment written at buffer_start
        have hs2 : (xs.length - (b.cap - b.count) + k) % b.cap =
            xs.length - (b.cap - b.count) + k - b.cap := by
          rw [hs, if_neg hin]
        rw [hs2, writeSeq_apply_in, List.getElem_drop]
        all_goals first
          | (exact getElem_idx_eq _ _ _ _ _ (by omega))
          | omega
          | (simp only [List.length_take]; omega)
          | (simp only [List.length_drop]; omega)

theorem insert_back_caseB (b : Buf α) (xs : List α) (hwf : Wf b)
    (h1 : b.cap - b.count < xs.length) (h2 : xs.length < b.cap)
    (hf0 : ¬b.front = 0) (hb0 : b.back = 0) :
    (insert_back b xs).count = b.cap ∧
      toList (insert_back b xs) =
        (toList b).drop (xs.length - (b.cap - b.count)) ++ xs := by
  obtain ⟨hc, hfr, hb, hcnt, hback⟩ := hwf
  have hcnt0 : 0 < b.count := by omega
  have hfc : b.front + b.count = b.cap := by
    have hm := mod_cases (b.front + b.count) b.cap hc (by omega)
    rw [← hback, hb0] at hm
    split_ifs at hm <;> omega
  have hred : insert_back b xs =
      { b with count := b.cap,
               front := b.back + xs.length, back := b.back + xs.length,
               data := writeSeq b.data b.back xs } := by
    unfold insert_back
    simp only [reserveSize, capacity, size]
    rw [if_neg (by omega), if_pos (by omega), if_neg hf0, if_pos hb0]
  rw [hred, hb0]
  simp only [Nat.zero_add]
  refine ⟨by trivial, ?_⟩
  apply List.ext_getElem
  · simp only [toList_length, List.length_append, List.length_drop]
    omega
  · intro k hk1 hk2
    rw [toList_getElem]
    dsimp only
    have hk1c : k < b.cap := by
      rw [toList_length] at hk1
      exact hk1
    have hlen_drop : ((toList b).drop (xs.length - (b.cap - b.count))).length =
        b.count - (xs.length - (b.cap - b.count)) := by
      simp [toList_length]
    by_cases hkc : k < b.count - (xs.length - (b.cap - b.count))
    · -- a surviving old element, still in place in [front + r, cap)
      rw [List.getElem_append_left (by omega)]
      rw [List.getElem_drop, toList_getElem]
      have hsL : (xs.length + k) % b.cap = xs.length + k := by
        rw [mod_cases _ _ hc (by omega), if_pos (by omega)]
      have hsR : (b.front + (xs.length - (b.cap - b.count) + k)) % b.cap =
          b.front + (xs.length - (b.cap - b.count) + k) := by
        rw [mod_cases _ _ hc (by omega), if_pos (by omega)]
      rw [hsL, hsR, writeSeq_apply_out]
      · exact congrArg b.data (by omega)
      · omega
    · -- a freshly inserted element, written at slots [0, m)
      rw [List.getElem_append_right (by omega)]
      simp only [hlen_drop]
      have hsL : (xs.length + k) % b.cap = xs.length + k - b.cap := by
        rw [mod_cases _ _ hc (by omega), if_neg (by omega)]
      rw [hsL, writeSeq_apply_in b.data 0 xs (xs.length + k - b.cap) (by omega) (by omega)]
      exact getElem_idx_eq _ _ _ _ _ (by omega)

theorem insert_back_caseC (b : Buf α) (xs : List α) (hwf : Wf b)
    (h1 : b.cap - b.count < xs.length) (h2 : xs.length < b.cap)
    (hf0 : ¬b.front = 0) (hb0 : ¬b.back = 0) (hlin : is_linearized b = false) :
    (insert_back b xs).count = b.cap ∧
      toList (insert_back b xs) =
        (toList b).drop (xs.length - (b.cap - b.count)) ++ xs := by
  obtain ⟨hc, hfr, hb, hcnt, hback⟩ := hwf
  have hcnt0 : 0 < b.count := by omega
  have hle : b.back ≤ b.front := by
    by_contra hgt
    have hli : is_linearized b = true := by
      simp [is_linearized]
      omega
    rw [hlin] at hli
    exact Bool.false_ne_true hli
  have hwrap : b.cap < b.front + b.count ∧ b.back = b.front + b.count - b.cap := by
    have hm := mod_cases (b.front + b.count) b.cap hc (by omega)
    rw [← hback] at hm
    split_ifs at hm <;> omega
  by_cases hra : xs.length - (b.cap - b.count) ≤ b.cap - b.front
  · -- the elements to make room for fit inside array_one: a plain copy at back_ptr
    have hred : insert_back b xs =
        { b with count := b.cap,
                 front := if b.back + xs.length = b.cap then 0 else b.back + xs.length,
                 back := if b.back + xs.length = b.cap then 0 else b.back + xs.length,
                 data := writeSeq b.data b.back xs } := by
      unfold insert_back
      simp only [reserveSize, capacity, size]
      rw [if_neg (by omega), if_pos (by omega), if_neg hf0, if_neg hb0, if_pos hlin,
        if_neg (by omega)]
      rw [show min (xs.length - (b.cap - b.count)) (b.cap - b.front) =
            xs.length - (b.cap - b.count) from by omega]
      rw [show b.cap - b.count + (xs.length - (b.cap - b.count)) = xs.length from by omega]
      rw [List.take_length]
    rw [hred]
    refine ⟨rfl, ?_⟩
    have hple : b.back + xs.length ≤ b.cap := by omega
    have hfp : (if b.back + xs.length = b.cap then 0 else b.back + xs.length) =
        (b.back + xs.length) % b.cap := by
      rcases eq_or_ne (b.back + xs.length) b.cap with he | hne
      · rw [if_pos he, he, Nat.mod_self]
      · rw [if_neg hne, Nat.mod_eq_of_lt (by omega)]
    apply List.ext_getElem
    · simp only [toList_length, List.length_append, List.length_drop]
      omega
    · intro k hk1 hk2
      rw [toList_getElem]
      dsimp only
      have hk1c : k < b.cap := by
        rw [toList_length] at hk1
        exact hk1
      have hlen_drop : ((toList b).drop (xs.length - (b.cap - b.count))).length =
          b.count - (xs.length - (b.cap - b.count)) := by
        simp [toList_length]
      rw [hfp, Nat.mod_add_mod]
      by_cases hkc : k < b.count - (xs.length - (b.cap - b.count))
      · -- survivor: its slot is untouched by the copy at [back, back + m)
        rw [List.getElem_append_left (by omega), List.getElem_drop, toList_getElem]
        rw [show b.back + xs.length + k =
              b.front + (xs.length - (b.cap - b.count) + k) from by omega]
        by_cases hv : b.front + (xs.length - (b.cap - b.count) + k) < b.cap
        · rw [mod_cases _ _ hc (by omega), if_pos hv, writeSeq_apply_out]
          omega
        · rw [mod_cases _ _ hc (by omega), if_neg hv, writeSeq_apply_out]
          omega
      · -- new element: written inside [back, back + m)
        rw [List.getElem_append_right (by omega)]
        simp only [hlen_drop]
        have hsL : (b.back + xs.length + k) % b.cap = b.back + xs.length + k - b.cap := by
          rw [mod_cases _ _ hc (by omega), if_neg (by omega)]
        rw [hsL, writeSeq_apply_in b.data b.back xs (b.back + xs.length + k - b.cap)
          (by omega) (by omega)]
        exact getElem_idx_eq _ _ _ _ _ (by omega)
  · -- the destroy range spills past the storage end: two copies, two destroys
    have hred : insert_back b xs =
        { b with count := b.cap,
                 front := xs.length - (b.cap - b.count) - (b.cap - b.front),
                 back := xs.length - (b.cap - b.count) - (b.cap - b.front),
                 data := writeSeq (writeSeq b.data b.back (xs.take (b.cap - b.back))) 0
                           (xs.drop (b.cap - b.back)) } := by
      unfold insert_back
      simp only [reserveSize, capacity, size]
      rw [if_neg (by omega), if_pos (by omega), if_neg hf0, if_neg hb0, if_pos hlin,
        if_pos (by omega)]
      rw [show min (xs.length - (b.cap - b.count)) (b.cap - b.front) =
            b.cap - b.front from by omega]
      rw [show b.cap - b.count + (b.cap - b.front) = b.cap - b.back from by omega]
    rw [hred]
    refine ⟨rfl, ?_⟩
    apply List.ext_getElem
    · simp only [toList_length, List.length_append, List.length_drop]
      omega
    · intro k hk1 hk2
      rw [toList_getElem]
      dsimp only
      have hk1c : k < b.cap := by
        rw [toList_length] at hk1
        exact hk1
      have hlen_drop : ((toList b).drop (xs.length - (b.cap - b.count))).length =
          b.count - (xs.length - (b.cap - b.count)) := by
        simp [toList_length]
      by_cases hkc : k < b.count - (xs.length - (b.cap - b.count))
      · -- survivor: sits in [r2, back), untouched by both copies
        rw [List.getElem_append_left (by omega), List.getElem_drop, toList_getElem]
        have hsL : (xs.length - (b.cap - b.count) - (b.cap - b.front) + k) % b.cap =
            xs.length - (b.cap - b.count) - (b.cap - b.front) + k := by
          rw [mod_cases _ _ hc (by omega), if_pos (by omega)]
        have hsR : (b.front + (xs.length - (b.cap - b.count) + k)) % b.cap =
            b.front + (xs.length - (b.cap - b.count) + k) - b.cap := by
          rw [mod_cases _ _ hc (by omega), if_neg (by omega)]
        rw [hsL, hsR, writeSeq_apply_out, writeSeq_apply_out]
        all_goals first
          | (exact congrArg b.data (by omega))
          | (simp only [List.length_drop]; omega)
          | (simp only [List.length_take]; omega)
      · -- new element
        rw [List.getElem_append_right (by omega)]
        simp only [hlen_drop]
        by_cases hin2 : xs.length - (b.cap - b.count) - (b.cap - b.front) + k < b.cap
        · -- written by the first copy, at [back, cap)
          have hsL : (xs.length - (b.cap - b.count) - (b.cap - b.front) + k) % b.cap =
              xs.length - (b.cap - b.count) - (b.cap - b.front) + k := by
            rw [mod_cases _ _ hc (by omega), if_pos hin2]
          rw [hsL, writeSeq_apply_out, writeSeq_apply_in, List.getElem_take]
          all_goals first
            | (exact getElem_idx_eq _ _ _ _ _ (by omega))
            | omega
            | (simp only [List.length_take]; omega)
            | (simp only [List.length_drop]; omega)
        · -- written by the second copy, at [0, r2)
          have hsL : (xs.length - (b.cap - b.count) - (b.cap - b.front) + k) % b.cap =
              xs.length - (b.cap - b.count) - (b.cap - b.front) + k - b.cap := by
            rw [mod_cases _ _ hc (by omega), if_neg hin2]
          rw [hsL, writeSeq_apply_in, List.getElem_drop]
          all_goals first
            | (exact getElem_idx_eq _ _ _ _ _ (by omega))
            | omega
            | (simp only [List.length_take]; omega)
            | (simp only [List.length_drop]; omega)

theorem insert_back_caseD (b : Buf α) (xs : List α) (hwf : Wf b)
    (h1 : b.cap - b.count < xs.length) (h2 : xs.length < b.cap)
    (hf0 : ¬b.front = 0) (hb0 : ¬b.back = 0) (hlin : is_linearized b = true) :
    (insert_back b xs).count = b.cap ∧
      toList (insert_back b xs) =
        (toList b).drop (xs.length - (b.cap - b.count)) ++ xs := by
  obtain ⟨hc, hfr, hb, hcnt, hback⟩ := hwf
  have hcnt0 : 0 < b.count := by omega
  have hgt : b.front < b.back := by
    simp only [is_linearized, Bool.or_eq_true, decide_eq_true_eq, beq_iff_eq] at hlin
    rcases hlin with hg | hz
    · exact hg
    · omega
  have hbkv : b.back = b.front + b.count ∧ b.front + b.count < b.cap := by
    have hm := mod_cases (b.front + b.count) b.cap hc (by omega)
    rw [← hback] at hm
    split_ifs at hm <;> omega
  have hred : insert_back b xs =
      { b with count := b.cap,
               front := xs.length - (b.cap - b.back),
               back := xs.length - (b.cap - b.back),
               data := writeSeq (writeSeq b.data b.back (xs.take (b.cap - b.back))) 0
                         (xs.drop (b.cap - b.back)) } := by
    unfold insert_back
    simp only [reserveSize, capacity, size]
    rw [if_neg (by omega), if_pos (by omega), if_neg hf0, if_neg hb0,
      if_neg (show ¬is_linearized b = false by simp [hlin])]
  rw [hred]
  refine ⟨rfl, ?_⟩
  have hmt : b.cap - b.back < xs.length := by omega
  apply List.ext_getElem
  · simp only [toList_length, List.length_append, List.length_drop]
    omega
  · intro k hk1 hk2
    rw [toList_getElem]
    dsimp only
    have hk1c : k < b.cap := by
      rw [toList_length] at hk1
      exact hk1
    have hlen_drop : ((toList b).drop (xs.length - (b.cap - b.count))).length =
        b.count - (xs.length - (b.cap - b.count)) := by
      simp [toList_length]
    by_cases hkc : k < b.count - (xs.length - (b.cap - b.count))
    · -- survivor: sits in [front + r, back), untouched by both copies
      rw [List.getElem_append_left (by omega), List.getElem_drop, toList_getElem]
      have hsL : (xs.length - (b.cap - b.back) + k) % b.cap =
          xs.length - (b.cap - b.back) + k := by
        rw [mod_cases _ _ hc (by omega), if_pos (by omega)]
      have hsR : (b.front + (xs.length - (b.cap - b.count) + k)) % b.cap =
          b.front + (xs.length - (b.cap - b.count) + k) := by
        rw [mod_cases _ _ hc (by omega), if_pos (by omega)]
      rw [hsL, hsR, writeSeq_apply_out, writeSeq_apply_out]
      all_goals first
        | (exact congrArg b.data (by omega))
        | (simp only [List.length_drop]; omega)
        | (simp only [List.length_take]; omega)
    · -- new element
      rw [List.getElem_append_right (by omega)]
      simp only [hlen_drop]
      by_cases hin2 : xs.length - (b.cap - b.back) + k < b.cap
      · -- written by the first copy, at [back, cap)
        have hsL : (xs.length - (b.cap - b.back) + k) % b.cap =
            xs.length - (b.cap - b.back) + k := by
          rw [mod_cases _ _ hc (by omega), if_pos hin2]
        rw [hsL, writeSeq_apply_out, writeSeq_apply_in, List.getElem_take]
        all_goals first
          | (exact getElem_idx_eq _ _ _ _ _ (by omega))
          | omega
          | (simp only [List.length_take]; omega)
          | (simp only [List.length_drop]; omega)
      · -- written by the second copy, at [0, m - (cap - back))
        have hsL : (xs.length - (b.cap - b.back) + k) % b.cap =
            xs.length - (b.cap - b.back) + k - b.cap := by
          rw [mod_cases _ _ hc (by omega), if_neg hin2]
        rw [hsL, writeSeq_apply_in, List.getElem_drop]
        all_goals first
          | (exact getElem_idx_eq _ _ _ _ _ (by omega))
          | omega
          | (simp only [List.length_take]; omega)
          | (simp only [List.length_drop]; omega)

/-- C6: bulk `insert_back` of `m` elements with `available < m < capacity`
into a well-formed buffer fills the buffer (`size = capacity`) and the
resulting logical content is the last `capacity - m` old elements (the old
content with its `m - available` oldest entries dropped) followed by all `m`
new elements in order. -/
theorem C6_bulk_insert_overflow (b : Buf α) (xs : List α) (hwf : Wf b)
    (h1 : reserveSize b < xs.length) (h2 : xs.length < capacity b) :
    size (insert_back b xs) = capacity b ∧
      toList (insert_back b xs) = (toList b).drop (xs.length - reserveSize b) ++ xs := by
  by_cases hf : b.front = 0
  · exact insert_back_caseA b xs hwf h1 h2 hf
  · by_cases hbk : b.back = 0
    · exact insert_back_caseB b xs hwf h1 h2 hf hbk
    · cases hlin : is_linearized b with
      | false => exact insert_back_caseC b xs hwf h1 h2 hf hbk hlin
      | true => exact insert_back_caseD b xs hwf h1 h2 hf hbk hlin

theorem C6_bulk_insert_overflow_witness :
    Wf exBulk ∧ reserveSize exBulk < ([20, 21] : List Nat).length ∧
      ([20, 21] : List Nat).length < capacity exBulk ∧
      (size (insert_back exBulk [20, 21]) = capacity exBulk ∧
        toList (insert_back exBulk [20, 21]) =
          (toList exBulk).drop (([20, 21] : List Nat).length - reserveSize exBulk) ++
            [20, 21]) :=
  ⟨by decide, by decide, by decide,
    C6_bulk_insert_overflow exBulk [20, 21] (by decide) (by decide) (by decide)⟩

end RingBuffer

